import Mathlib

/-!
Shallow embedding of the copygen header-processing engine
(`internal/header/header.go` and its cached variant, `internal/view/render.go`,
`internal/config`), with theorems checking the specification's claims.

File contents are modelled as `List Char` (Go strings are byte sequences; all
inputs of interest here are valid text).  Filesystem I/O is modelled as pure
state passing: the tree walk acts on a list of path/content pairs, and the
atomic-replacement mutator is modelled as a straight-line program over the
observable file state with an explicit fault-injection record for each
fallible step.
-/

namespace Copygen

/-- Go `strings.Split(s, "\n")`: splits at every newline; `""` yields `[""]`.
The result is always non-empty and its elements contain no newline. -/
def splitLines : List Char → List (List Char)
  | [] => [[]]
  | c :: cs =>
    if c = '\n' then [] :: splitLines cs
    else
      match splitLines cs with
      | [] => [[c]]
      | l :: ls => (c :: l) :: ls

/-- Go `strings.Join(lines, "\n")`. -/
def joinLines : List (List Char) → List Char
  | [] => []
  | [l] => l
  | l :: ls => l ++ '\n' :: joinLines ls

/-- The `dropCR` helper of Go `bufio.ScanLines`: drops a single trailing
carriage return from a line. -/
def dropCR (l : List Char) : List Char :=
  match l.getLast? with
  | some c => if c = '\r' then l.dropLast else l
  | none => l

/-- Tokens produced by a `bufio.Scanner` with the default `ScanLines` split
function reading `s`: lines split at newline, each with a trailing carriage
return removed; a final newline terminates the last token rather than opening
an empty one, and empty input yields no token. -/
def scanLines (s : List Char) : List (List Char) :=
  if s = [] then []
  else
    let parts := (splitLines s).map dropCR
    if s.getLast? = some '\n' then parts.dropLast else parts

/-- The trailing-trim loop of `buildHeader`: repeatedly removes a final entry
equal to the bare comment prefix. -/
def trimTrailing (pfx : List Char) (header : List (List Char)) : List (List Char) :=
  (header.reverse.dropWhile (fun l => l = pfx)).reverse

/-- `(*Processor).buildHeader` from `internal/header/header.go`: split the raw
template on newlines, comment every line (bare prefix for empty lines,
`prefix ++ " " ++ line` otherwise), then trim trailing bare-prefix entries. -/
def buildHeader (tmpl pfx : List Char) : List (List Char) :=
  trimTrailing pfx
    ((splitLines tmpl).map (fun line => if line = [] then pfx else pfx ++ ' ' :: line))

/-- The `headerBytes` value computed by `addHeader`: the built header joined
with newlines, followed by a blank-line separator. -/
def headerText (tmpl pfx : List Char) : List Char :=
  joinLines (buildHeader tmpl pfx) ++ ['\n', '\n']

/-- The scanner loop of `checkHeader`/`peekHeader`: compare expected header
lines against the file's scanned lines in order.  Running out of file lines,
or the first differing line, yields `false` (with a nil error in this pure,
I/O-error-free model). -/
def checkHeaderLines : List (List Char) → List (List Char) → Bool
  | [], _ => true
  | _ :: _, [] => false
  | h :: hs, t :: ts => if t = h then checkHeaderLines hs ts else false

/-- `(*Processor).checkHeader` (identically `peekHeader` in the uncached
variant), at the level of file contents: an empty configured template or an
empty built header count as already-satisfied; otherwise the leading scanned
lines of the file are compared against the built header.  Errors can only
arise from I/O, which this content-level model has none of, so the boolean is
the full result (the error component is always nil). -/
def checkHeader (tmpl pfx content : List Char) : Bool :=
  if tmpl = [] then true
  else
    let header := buildHeader tmpl pfx
    if header = [] then true
    else checkHeaderLines header (scanLines content)

/-- Association-list lookup, modelling a Go map read. -/
def lookupAssoc {α β : Type} [DecidableEq α] : List (α × β) → α → Option β
  | [], _ => none
  | (k, v) :: rest, a => if k = a then some v else lookupAssoc rest a

/-- The static `commentPrefixes` table: extension to line-comment token. -/
def commentPrefixes : List (List Char × List Char) :=
  [(['.', 'g', 'o'], ['/', '/'])]

/-- Go `filepath.Ext`: the suffix beginning at the final dot in the final
path element; empty if there is no dot after the last separator. -/
def filepathExt (path : List Char) : List Char :=
  extAux path.reverse []
where
  /-- Scan the reversed path; `acc` holds the characters already passed, in
  original order. -/
  extAux : List Char → List Char → List Char
    | [], _ => []
    | c :: rest, acc =>
      if c = '/' then []
      else if c = '.' then '.' :: acc
      else extAux rest (c :: acc)

/-! Go `path/filepath.Match` (Unix: separator is `'/'`, backslash escapes are
active).  `none` models `ErrBadPattern`.  The bounded-recursion `fuel`
arguments are an implementation device for Lean's termination checker; every
entry point supplies fuel strictly larger than the number of loop iterations
the Go code can perform (each iteration consumes at least one pattern
character), so the fuel-exhaustion branches are unreachable. -/

/-- `getEsc` from `path/filepath/match.go`: read a possibly-escaped character
at the start of a range expression; rejects `-`, `]`, a dangling escape, and a
class that ends immediately after the character. -/
def getEsc (chunk : List Char) : Option (Char × List Char) :=
  match chunk with
  | [] => none
  | c :: rest =>
    if c = '-' ∨ c = ']' then none
    else if c = '\\' then
      match rest with
      | [] => none
      | r :: rest2 => if rest2 = [] then none else some (r, rest2)
    else if rest = [] then none else some (c, rest)

/-- The range-parsing loop inside `matchChunk`'s character-class case: given
the rune `r` read from the name, consume `lo`(-`hi`) ranges until the closing
bracket, accumulating whether any range contains `r` and how many ranges were
seen.  Returns the match flag and the chunk remainder after `]`. -/
def matchRanges : Nat → Char → List Char → Bool → Nat → Option (Bool × List Char)
  | 0, _, _, _, _ => none
  | fuel + 1, r, chunk, m, nrange =>
    match chunk with
    | ']' :: rest =>
      if nrange > 0 then some (m, rest)
      else none
    | _ =>
      match getEsc chunk with
      | none => none
      | some (lo, chunk1) =>
        match chunk1 with
        | '-' :: chunk1rest =>
          match getEsc chunk1rest with
          | none => none
          | some (hi, chunk2) =>
            matchRanges fuel r chunk2 (m || (decide (lo ≤ r) && decide (r ≤ hi))) (nrange + 1)
        | _ =>
          matchRanges fuel r chunk1 (m || (decide (lo ≤ r) && decide (r ≤ lo))) (nrange + 1)

/-- `matchChunk` from `path/filepath/match.go`: match a star-free chunk at the
start of `s`.  Once `failed` is set the chunk is still consumed for
well-formedness checking, but `s` is no longer read.  Result: `none` is
`ErrBadPattern`; `some none` is no match; `some (some t)` is a match with
remainder `t`. -/
def matchChunk : Nat → List Char → List Char → Bool → Option (Option (List Char))
  | 0, _, _, _ => none
  | fuel + 1, chunk, s, failed0 =>
    match chunk with
    | [] => if failed0 then some none else some (some s)
    | c :: ctail =>
      let failed := failed0 || s.isEmpty
      if c = '[' then
        let rs : Char × List Char :=
          if failed then (Char.ofNat 0, s)
          else
            match s with
            | [] => (Char.ofNat 0, [])
            | x :: xs => (x, xs)
        let nc : Bool × List Char :=
          match ctail with
          | '^' :: rest => (true, rest)
          | _ => (false, ctail)
        match matchRanges (nc.2.length + 1) rs.1 nc.2 false 0 with
        | none => none
        | some (m, chunkRest) =>
          matchChunk fuel chunkRest rs.2 (failed || (m == nc.1))
      else if c = '?' then
        if failed then matchChunk fuel ctail s failed
        else
          match s with
          | [] => matchChunk fuel ctail s failed
          | x :: xs => matchChunk fuel ctail xs (failed || decide (x = '/'))
      else if c = '\\' then
        match ctail with
        | [] => none
        | c2 :: ctail2 =>
          if failed then matchChunk fuel ctail2 s failed
          else
            match s with
            | [] => matchChunk fuel ctail2 s failed
            | x :: xs => matchChunk fuel ctail2 xs (failed || decide (¬ c2 = x))
      else
        if failed then matchChunk fuel ctail s failed
        else
          match s with
          | [] => matchChunk fuel ctail s failed
          | x :: xs => matchChunk fuel ctail xs (failed || decide (¬ c = x))

/-- The leading-star consumption of `scanChunk`. -/
def dropStars : List Char → List Char
  | '*' :: rest => dropStars rest
  | pat => pat

/-- The chunk-delimiting scan of `scanChunk`: copy characters up to the next
star not inside a bracket class, skipping the character after an escape. -/
def scanChunkBody (inrange : Bool) : List Char → List Char × List Char
  | [] => ([], [])
  | c :: rest =>
    if c = '\\' then
      match rest with
      | [] => ([c], [])
      | c2 :: rest2 =>
        let cr := scanChunkBody inrange rest2
        (c :: c2 :: cr.1, cr.2)
    else if c = '[' then
      let cr := scanChunkBody true rest
      (c :: cr.1, cr.2)
    else if c = ']' then
      let cr := scanChunkBody false rest
      (c :: cr.1, cr.2)
    else if c = '*' then
      if inrange then
        let cr := scanChunkBody inrange rest
        (c :: cr.1, cr.2)
      else ([], c :: rest)
    else
      let cr := scanChunkBody inrange rest
      (c :: cr.1, cr.2)

/-- `scanChunk` from `path/filepath/match.go`: strip leading stars (recording
whether there were any), then cut the pattern at the next top-level star. -/
def scanChunk (pat : List Char) : Bool × List Char × List Char :=
  let star : Bool :=
    match pat with
    | '*' :: _ => true
    | _ => false
  let body := scanChunkBody false (dropStars pat)
  (star, body.1, body.2)

/-- The star-search loop of `Match`: after a chunk preceded by `*` failed to
match at the current position, retry it at each later position of the name up
to (not crossing) a separator.  `patEmpty` records whether the remaining
pattern is empty (a trailing non-empty remainder then forces the search to
continue).  `some none` means the loop ended without a match. -/
def starLoop (chunk : List Char) (patEmpty : Bool) : List Char → Option (Option (List Char))
  | [] => some none
  | c :: restName =>
    if c = '/' then some none
    else
      match matchChunk (chunk.length + 1) chunk restName false with
      | none => none
      | some (some t) =>
        if patEmpty ∧ t ≠ [] then starLoop chunk patEmpty restName
        else some (some t)
      | some none => starLoop chunk patEmpty restName

/-- The pattern-validation loop `Match` runs before returning a non-error
`false`: every remaining chunk must be syntactically well-formed. -/
def validateRest : Nat → List Char → Option Bool
  | 0, _ => none
  | fuel + 1, pat =>
    match pat with
    | [] => some false
    | _ :: _ =>
      let sc := scanChunk pat
      match matchChunk (sc.2.1.length + 1) sc.2.1 [] false with
      | none => none
      | some _ => validateRest fuel sc.2.2

/-- The main loop of `filepath.Match`. -/
def filepathMatchAux : Nat → List Char → List Char → Option Bool
  | 0, _, _ => none
  | fuel + 1, pat, name =>
    match pat with
    | [] => some (decide (name = []))
    | _ :: _ =>
      let sc := scanChunk pat
      let star := sc.1
      let chunk := sc.2.1
      let rest := sc.2.2
      if star = true ∧ chunk = [] then
        some (! name.contains '/')
      else
        match matchChunk (chunk.length + 1) chunk name false with
        | none => none
        | some (some t) =>
          if t = [] ∨ rest ≠ [] then filepathMatchAux fuel rest t
          else if star then
            match starLoop chunk (decide (rest = [])) name with
            | none => none
            | some (some t2) => filepathMatchAux fuel rest t2
            | some none => validateRest (rest.length + 1) rest
          else validateRest (rest.length + 1) rest
        | some none =>
          if star then
            match starLoop chunk (decide (rest = [])) name with
            | none => none
            | some (some t2) => filepathMatchAux fuel rest t2
            | some none => validateRest (rest.length + 1) rest
          else validateRest (rest.length + 1) rest

/-- Go `filepath.Match(pattern, name)`; `none` models `ErrBadPattern`. -/
def filepathMatch (pat name : List Char) : Option Bool :=
  filepathMatchAux (pat.length + 1) pat name

/-- Go `strings.Contains(pattern, "**")`, specialised to the two-star needle
used by `isExcluded`. -/
def containsStarStar : List Char → Bool
  | '*' :: '*' :: _ => true
  | _ :: rest => containsStarStar rest
  | [] => false

/-- Go `strings.TrimSuffix(s, suffix)`. -/
def trimSuffix (s suf : List Char) : List Char :=
  if suf.isSuffixOf s then s.take (s.length - suf.length) else s

/-- Go `filepath.ToSlash`: on Unix the separator is already `'/'`, so this is
the identity. -/
def toSlash (p : List Char) : List Char := p

/-- One iteration of the `isExcluded` loop, for a single pattern: a glob
match excludes; a malformed pattern is skipped entirely; otherwise a pattern
containing `**` or ending in `/` is additionally tried as a directory prefix
(trailing separator normalized) against the path with a separator appended. -/
def isExcludedOne (normPath pat : List Char) : Bool :=
  match filepathMatch pat normPath with
  | none => false
  | some true => true
  | some false =>
    if containsStarStar pat || ['/'].isSuffixOf pat then
      let dirPat := trimSuffix pat ['/'] ++ ['/']
      dirPat.isPrefixOf (normPath ++ ['/'])
    else false

/-- `(*Processor).isExcluded`: normalize separators, then return true on the
first satisfied exclusion pattern. -/
def isExcluded (exclude : List (List Char)) (path : List Char) : Bool :=
  exclude.any (fun pat => isExcludedOne (toSlash path) pat)

/-- `config.Config`: the header template and the exclusion pattern list. -/
structure Config where
  Header : List Char
  Exclude : List (List Char)

/-- A regular file encountered by the walk: its path and current content.
Directories are filtered out by the walk callback before any processing, so
the walk is modelled directly on the list of regular files, in walk order. -/
structure FileEntry where
  path : List Char
  content : List Char
deriving DecidableEq

/-- Result of a run: the post-run file contents (same paths, same order) and
the notifications passed to the view.  A notification is identified by the
path it reports; the surrounding message text and terminal styling are
display-layer formatting with no behavioural content. -/
structure ProcResult where
  files : List FileEntry
  reports : List (List Char)
deriving DecidableEq

/-- The per-file body of the `filepath.Walk` callback in `Process`, on
error-free I/O: unknown extension or excluded path is skipped silently;
a present header is skipped silently; otherwise dry-run emits a
"would add header" notification and leaves the file alone, and normal mode
rewrites the file through `addHeader` (header text prepended) and emits an
"added header" notification.  The cached variant's `getHeader` is used where
this model writes `buildHeader`; `getHeader_cache_coherent` below shows the
two always agree. -/
def processFile (cfg : Config) (dryRun : Bool) (f : FileEntry) : FileEntry × List (List Char) :=
  match lookupAssoc commentPrefixes (filepathExt f.path) with
  | none => (f, [])
  | some pfx =>
    if isExcluded cfg.Exclude f.path then (f, [])
    else if checkHeader cfg.Header pfx f.content then (f, [])
    else if dryRun then (f, [f.path])
    else (⟨f.path, headerText cfg.Header pfx ++ f.content⟩, [f.path])

/-- `(*Processor).Process` on error-free I/O: fold the walk callback over the
files in walk order, collecting the rewritten tree and notifications. -/
def Process (cfg : Config) (dryRun : Bool) : List FileEntry → ProcResult
  | [] => ⟨[], []⟩
  | f :: rest =>
    let step := processFile cfg dryRun f
    let r := Process cfg dryRun rest
    ⟨step.1 :: r.files, step.2 ++ r.reports⟩

/-- Fault injection for each fallible step of `addHeader`, in program order:
opening the original, creating the temp file, writing the header, the stream
copy, closing the temp file, and the final rename.  (The `f.Stat` used for
permission copying is best-effort and its failure is ignored by the code, so
it needs no flag.) -/
structure FaultSpec where
  failOpen : Bool
  failCreate : Bool
  failWrite : Bool
  failCopy : Bool
  failClose : Bool
  failRename : Bool

/-- Observable outcome of one `addHeader` call: whether an error was
returned, the content at the target path afterwards, and whether (and with
what content) the temporary file is left behind in the target directory. -/
structure AddResult where
  err : Bool
  fileContent : List Char
  tmpExists : Bool
  tmpContent : List Char

/-- `(*Processor).addHeader` as a straight-line program over the observable
file state, with fault injection.  Failures at open/create/write/copy/close
return before `tmp` is cleared, so the deferred cleanup closes and removes
the temp file (any partial copy data lives only in that removed file); after
a successful close, `tmp` is set to nil, so a rename failure returns with the
fully-written temp file left behind; only a successful rename publishes the
new content at the target path. -/
def addHeaderRun (tmpl pfx orig : List Char) (ft : FaultSpec) : AddResult :=
  if ft.failOpen then ⟨true, orig, false, []⟩
  else if ft.failCreate then ⟨true, orig, false, []⟩
  else if ft.failWrite then ⟨true, orig, false, []⟩
  else if ft.failCopy then ⟨true, orig, false, []⟩
  else if ft.failClose then ⟨true, orig, false, []⟩
  else if ft.failRename then ⟨true, orig, true, headerText tmpl pfx ++ orig⟩
  else ⟨false, headerText tmpl pfx ++ orig, false, []⟩

/-- The header cache of the cached `Processor` variant: a prefix-keyed map,
modelled as an association list. -/
abbrev Cache : Type := List (List Char × List (List Char))

/-- `(*Processor).getHeader`: fast-path lookup, then (sequentialising the
double-checked locking) re-check and build-and-store on a miss.  Returns the
header and the updated cache. -/
def getHeader (cfg : Config) (cache : Cache) (pfx : List Char) :
    List (List Char) × Cache :=
  match lookupAssoc cache pfx with
  | some cached => (cached, cache)
  | none => (buildHeader cfg.Header pfx, (pfx, buildHeader cfg.Header pfx) :: cache)

/-- `(*Processor).warmCache`: for every known comment prefix, build and store
the header unless an entry already exists. -/
def warmCache (cfg : Config) (cache : Cache) : Cache :=
  commentPrefixes.foldl
    (fun c entry =>
      match lookupAssoc c entry.2 with
      | some _ => c
      | none => (entry.2, buildHeader cfg.Header entry.2) :: c)
    cache

/-- Cache well-formedness: every stored entry is the built header for its
prefix.  Holds for the empty initial cache and is preserved by both cache
operations. -/
def CacheWF (cfg : Config) (cache : Cache) : Prop :=
  ∀ p v, lookupAssoc cache p = some v → v = buildHeader cfg.Header p

/-- Characterization used to state the notification discipline of `Process`:
a file needs a header exactly when its extension has a registered comment
prefix, its path is not excluded, and the header check on its content fails.
This mirrors the walk callback's chain of guards. -/
def needsHeader (cfg : Config) (f : FileEntry) : Bool :=
  match lookupAssoc commentPrefixes (filepathExt f.path) with
  | none => false
  | some pfx => !isExcluded cfg.Exclude f.path && !checkHeader cfg.Header pfx f.content

/-- Outcome of `HumanRenderer.Render`: a normal return, or the `panic(err)`
the method executes when the underlying writer reports an error. -/
inductive RenderResult where
  | ok : RenderResult
  | fatal : String → RenderResult
deriving DecidableEq

/-- `(*HumanRenderer).Render` from `internal/view/render.go`: write the input
to the view's stream writer; on a writer error, panic with that error.  The
writer is modelled as a function returning `some errMsg` on failure and
`none` on success. -/
def HumanRenderer.Render (w : String → Option String) (input : String) : RenderResult :=
  match w input with
  | some e => RenderResult.fatal e
  | none => RenderResult.ok

/-! Helper lemmas. -/

theorem splitLines_ne_nil (s : List Char) : splitLines s ≠ [] := by
  cases s with
  | nil => simp [splitLines]
  | cons c cs =>
    simp only [splitLines]
    split
    · simp
    · split <;> simp

theorem splitLines_cons_ne (c : Char) (cs : List Char) (hc : ¬ c = '\n') :
    ∃ l ls, splitLines cs = l :: ls ∧ splitLines (c :: cs) = (c :: l) :: ls := by
  cases h : splitLines cs with
  | nil => exact absurd h (splitLines_ne_nil cs)
  | cons l ls => exact ⟨l, ls, rfl, by simp [splitLines, hc, h]⟩

theorem mem_splitLines_no_newline {s l : List Char} (h : l ∈ splitLines s) : '\n' ∉ l := by
  induction s generalizing l with
  | nil =>
    simp [splitLines] at h
    simp [h]
  | cons c cs ih =>
    by_cases hc : c = '\n'
    · subst hc
      simp [splitLines] at h
      rcases h with h | h
      · simp [h]
      · exact ih h
    · obtain ⟨l', ls', h1, h2⟩ := splitLines_cons_ne c cs hc
      rw [h2] at h
      rcases List.mem_cons.mp h with h | h
      · subst h
        have : l' ∈ splitLines cs := by rw [h1]; exact List.mem_cons_self _ _
        have hl' := ih this
        simp [List.mem_cons, hc]
        exact ⟨fun hh => hc hh.symm, hl'⟩
      · exact ih (by rw [h1]; exact List.mem_cons_of_mem _ h)

theorem splitLines_append (l s : List Char) (hl : '\n' ∉ l) :
    splitLines (l ++ '\n' :: s) = l :: splitLines s := by
  induction l with
  | nil => simp [splitLines]
  | cons c cs ih =>
    have hc : ¬ c = '\n' := fun h => hl (h ▸ List.mem_cons_self _ _)
    have hcs : '\n' ∉ cs := fun h => hl (List.mem_cons_of_mem _ h)
    obtain ⟨l', ls', h1, h2⟩ := splitLines_cons_ne c (cs ++ '\n' :: s) hc
    rw [List.cons_append, h2]
    rw [ih hcs] at h1
    obtain ⟨rfl, rfl⟩ : l' = cs ∧ ls' = splitLines s := by
      constructor <;> [exact (List.cons.injEq .. ▸ h1).1.symm; exact (List.cons.injEq .. ▸ h1).2.symm]
    rfl

theorem splitLines_joinLines (header : List (List Char)) (rest : List Char)
    (hne : header ≠ []) (hl : ∀ l ∈ header, '\n' ∉ l) :
    splitLines (joinLines header ++ '\n' :: rest) = header ++ splitLines rest := by
  induction header with
  | nil => exact absurd rfl hne
  | cons a t ih =>
    cases t with
    | nil =>
      simp only [joinLines, List.singleton_append]
      exact splitLines_append a rest (hl a (List.mem_cons_self _ _))
    | cons b t2 =>
      have hstep : joinLines (a :: b :: t2) = a ++ '\n' :: joinLines (b :: t2) := rfl
      rw [hstep, List.append_assoc, List.cons_append]
      rw [splitLines_append a _ (hl a (List.mem_cons_self _ _))]
      rw [ih (by simp) (fun x hx => hl x (List.mem_cons_of_mem _ hx))]
      rfl

theorem dropCR_eq_self {l : List Char} (h : ¬ l.getLast? = some '\r') : dropCR l = l := by
  unfold dropCR
  cases hl : l.getLast? with
  | none => rfl
  | some c =>
    have : ¬ c = '\r' := fun hc => h (hc ▸ hl)
    simp [this]

theorem checkHeaderLines_self (hs ts : List (List Char)) :
    checkHeaderLines hs (hs ++ ts) = true := by
  induction hs with
  | nil => rfl
  | cons h t ih => simpa [checkHeaderLines] using ih

theorem checkHeaderLines_mismatch (hs : List (List Char)) (hN lN : List Char)
    (rest : List (List Char)) (hne : ¬ lN = hN) :
    checkHeaderLines (hs ++ [hN]) (hs ++ lN :: rest) = false := by
  induction hs with
  | nil => simp [checkHeaderLines, hne]
  | cons a t ih => simpa [checkHeaderLines] using ih

theorem checkHeader_false_nonempty {tmpl pfx content : List Char}
    (h : checkHeader tmpl pfx content = false) :
    ¬ tmpl = [] ∧ ¬ buildHeader tmpl pfx = [] := by
  by_cases h1 : tmpl = [] <;> by_cases h2 : buildHeader tmpl pfx = [] <;>
    simp_all [checkHeader]

theorem mem_buildHeader {tmpl pfx l : List Char} (h : l ∈ buildHeader tmpl pfx) :
    l = pfx ∨ ∃ t, t ∈ splitLines tmpl ∧ ¬ t = [] ∧ l = pfx ++ ' ' :: t := by
  unfold buildHeader trimTrailing at h
  have h2 : l ∈ (splitLines tmpl).map
      (fun line => if line = [] then pfx else pfx ++ ' ' :: line) := by
    have hmem := (List.dropWhile_sublist _).subset (List.mem_reverse.mp h)
    exact List.mem_reverse.mp hmem
  obtain ⟨t, ht, hl⟩ := List.mem_map.mp h2
  by_cases htn : t = []
  · left
    rw [← hl, htn]
    simp
  · right
    exact ⟨t, ht, htn, by rw [← hl]; simp [htn]⟩

theorem checkHeader_headerText (tmpl pfx orig : List Char)
    (hne : ¬ tmpl = []) (hBH : ¬ buildHeader tmpl pfx = [])
    (hln : ∀ l ∈ buildHeader tmpl pfx, '\n' ∉ l)
    (hcr : ∀ l ∈ buildHeader tmpl pfx, ¬ l.getLast? = some '\r') :
    checkHeader tmpl pfx (headerText tmpl pfx ++ orig) = true := by
  have hcontent : headerText tmpl pfx ++ orig
      = joinLines (buildHeader tmpl pfx) ++ '\n' :: ('\n' :: orig) := by
    simp [headerText]
  have hsplit : splitLines (joinLines (buildHeader tmpl pfx) ++ '\n' :: ('\n' :: orig))
      = buildHeader tmpl pfx ++ splitLines ('\n' :: orig) :=
    splitLines_joinLines _ _ hBH hln
  have hsplit2 : splitLines ('\n' :: orig) = [] :: splitLines orig := by
    simp [splitLines]
  have hmap : (buildHeader tmpl pfx).map dropCR = buildHeader tmpl pfx := by
    rw [List.map_congr_left (fun l hl => dropCR_eq_self (hcr l hl)), List.map_id']
  unfold checkHeader
  rw [if_neg hne]
  show (if buildHeader tmpl pfx = [] then true
        else checkHeaderLines (buildHeader tmpl pfx)
          (scanLines (headerText tmpl pfx ++ orig))) = true
  rw [if_neg hBH, hcontent]
  unfold scanLines
  rw [if_neg (by simp)]
  show checkHeaderLines (buildHeader tmpl pfx)
      (if (joinLines (buildHeader tmpl pfx) ++ '\n' :: ('\n' :: orig)).getLast? = some '\n'
       then ((splitLines (joinLines (buildHeader tmpl pfx) ++ '\n' :: ('\n' :: orig))).map
          dropCR).dropLast
       else (splitLines (joinLines (buildHeader tmpl pfx) ++ '\n' :: ('\n' :: orig))).map
          dropCR) = true
  rw [hsplit, hsplit2, List.map_append, hmap]
  by_cases hlast :
      (joinLines (buildHeader tmpl pfx) ++ '\n' :: ('\n' :: orig)).getLast? = some '\n'
  · rw [if_pos hlast, List.dropLast_append_of_ne_nil _ (by simp)]
    exact checkHeaderLines_self _ _
  · rw [if_neg hlast]
    exact checkHeaderLines_self _ _

theorem lookupAssoc_commentPrefixes {e p : List Char}
    (h : lookupAssoc commentPrefixes e = some p) : p = ['/', '/'] := by
  unfold commentPrefixes lookupAssoc at h
  by_cases he : ['.', 'g', 'o'] = e
  · simp only [if_pos he] at h
    exact (Option.some.injEq .. ▸ h).symm
  · simp only [if_neg he] at h
    exact absurd h (by unfold lookupAssoc; simp)

/-! Claim theorems. -/

/-- C1 (confirmed): whenever `addHeader` returns without error, the content
now at the target path is exactly the built header lines joined by newline,
followed by the blank-line separator, followed by the original bytes
unchanged; and no temporary file is left behind. -/
theorem addHeader_content_preservation (tmpl pfx orig : List Char) (ft : FaultSpec)
    (h : (addHeaderRun tmpl pfx orig ft).err = false) :
    (addHeaderRun tmpl pfx orig ft).fileContent
      = joinLines (buildHeader tmpl pfx) ++ '\n' :: '\n' :: orig ∧
    (addHeaderRun tmpl pfx orig ft).tmpExists = false := by
  rcases ft with ⟨o, c, w, cp, cl, r⟩
  cases o <;> cases c <;> cases w <;> cases cp <;> cases cl <;> cases r <;>
    simp_all [addHeaderRun, headerText]

/-- Witness for C1 at a concrete input: the fault-free run on template `"T"`,
prefix `"//"`, original content `"x"`. -/
theorem addHeader_content_preservation_witness :
    (addHeaderRun "T".toList "//".toList "x".toList
        ⟨false, false, false, false, false, false⟩).fileContent
      = joinLines (buildHeader "T".toList "//".toList) ++ '\n' :: '\n' :: "x".toList ∧
    (addHeaderRun "T".toList "//".toList "x".toList
        ⟨false, false, false, false, false, false⟩).tmpExists = false :=
  addHeader_content_preservation _ _ _ _ (by decide)

/-- C2 (confirmed): if a fault is injected at temp-file creation, header
write, content copy, or close, then `addHeader` returns an error, the target
path still holds the original bytes, and the temporary file has been removed
by the deferred cleanup. -/
theorem addHeader_failure_atomicity (tmpl pfx orig : List Char) (ft : FaultSpec)
    (h : ft.failCreate = true ∨ ft.failWrite = true ∨ ft.failCopy = true ∨
      ft.failClose = true) :
    (addHeaderRun tmpl pfx orig ft).err = true ∧
    (addHeaderRun tmpl pfx orig ft).fileContent = orig ∧
    (addHeaderRun tmpl pfx orig ft).tmpExists = false := by
  rcases ft with ⟨o, c, w, cp, cl, r⟩
  cases o <;> cases c <;> cases w <;> cases cp <;> cases cl <;> cases r <;>
    simp_all [addHeaderRun]

/-- Witness for C2 at a concrete input: a fault injected at the stream-copy
step. -/
theorem addHeader_failure_atomicity_witness :
    (addHeaderRun "T".toList "//".toList "x".toList
        ⟨false, false, false, true, false, false⟩).err = true ∧
    (addHeaderRun "T".toList "//".toList "x".toList
        ⟨false, false, false, true, false, false⟩).fileContent = "x".toList ∧
    (addHeaderRun "T".toList "//".toList "x".toList
        ⟨false, false, false, true, false, false⟩).tmpExists = false :=
  addHeader_failure_atomicity _ _ _ _ (Or.inr (Or.inr (Or.inl rfl)))

/-- C4 (code bug): with the exclusion list exactly `["vendor/**"]`, the code
does NOT exclude `vendor/lib/file.go` — `filepath.Match` stops `*` at path
separators, and the directory-pattern fallback prefix-compares the literal
string `"vendor/**/"`, which no real path starts with.  (The path
`src/vendor_utils.go` is indeed not excluded, and a pattern with an explicit
trailing separator such as `"vendor/"` does work as a directory prefix.) -/
theorem isExcluded_doublestar_eval :
    isExcluded ["vendor/**".toList] "vendor/lib/file.go".toList = false ∧
    isExcluded ["vendor/**".toList] "src/vendor_utils.go".toList = false ∧
    isExcluded ["vendor/".toList] "vendor/lib/file.go".toList = true := by
  decide

/-- C9 (counterexample): `HumanRenderer.Render` does not return normally when
the underlying writer errors — it panics with the writer's error. -/
theorem render_writer_error_counterexample :
    HumanRenderer.Render (fun _ => some "write failed") "added header to a.go"
      ≠ RenderResult.ok := by
  decide

/-- C9 (amended): `Render` returns normally exactly when the underlying
writer succeeds; when the writer returns an error, `Render` panics with that
error, aborting the operation. -/
theorem render_outcome (w : String → Option String) (input : String) :
    (w input = none → HumanRenderer.Render w input = RenderResult.ok) ∧
    ∀ e, w input = some e → HumanRenderer.Render w input = RenderResult.fatal e := by
  constructor
  · intro h
    simp [HumanRenderer.Render, h]
  · intro e h
    simp [HumanRenderer.Render, h]

/-- Witness for the amended C9 at a concrete input: a succeeding writer. -/
theorem render_outcome_witness :
    HumanRenderer.Render (fun _ => none) "added header to a.go" = RenderResult.ok :=
  (render_outcome (fun _ => none) "added header to a.go").1 rfl

/-- C10 (confirmed): a visited file whose extension is not `.go` — the only
extension in the static comment-prefix table — is skipped silently in every
mode: its entry is unchanged and no notification is emitted. -/
theorem processFile_skips_unknown_ext (cfg : Config) (dryRun : Bool) (f : FileEntry)
    (h : ¬ filepathExt f.path = ['.', 'g', 'o']) :
    processFile cfg dryRun f = (f, []) := by
  have hlook : lookupAssoc commentPrefixes (filepathExt f.path) = none := by
    unfold commentPrefixes lookupAssoc
    rw [if_neg (fun he => h he.symm)]
    unfold lookupAssoc
    rfl
  simp [processFile, hlook]

/-- Witness for C10 at a concrete input: a `.py` file is left untouched and
unreported. -/
theorem processFile_skips_unknown_ext_witness :
    processFile ⟨"T".toList, []⟩ false ⟨"a.py".toList, "x".toList⟩
      = (⟨"a.py".toList, "x".toList⟩, []) :=
  processFile_skips_unknown_ext _ _ _ (by decide)

/-- C3 (counterexample): with template `"hi\r"` the built header is the
single non-empty line `"// hi\r"`, yet the freshly mutated file fails the
header check — the scanner strips the trailing carriage return before
comparing — so a second non-dry run mutates the file again and emits another
report. -/
theorem processFile_idempotent_counterexample :
    buildHeader "hi\r".toList "//".toList ≠ [] ∧
    checkHeader "hi\r".toList "//".toList
        (headerText "hi\r".toList "//".toList ++ "x".toList) = false ∧
    processFile ⟨"hi\r".toList, []⟩ false
        ((processFile ⟨"hi\r".toList, []⟩ false ⟨"a.go".toList, "x".toList⟩).1)
      ≠ ((processFile ⟨"hi\r".toList, []⟩ false ⟨"a.go".toList, "x".toList⟩).1, []) := by
  decide

/-- C3 (amended, confirmed): provided no built-header line ends in a carriage
return, a non-dry run is idempotent per file: running the walk callback on
the output of a previous non-dry run leaves the file unchanged and emits no
report (in particular, every freshly mutated file passes the subsequent
header check). -/
theorem processFile_idempotent (cfg : Config) (f : FileEntry)
    (hcr : ∀ l ∈ buildHeader cfg.Header ['/', '/'], ¬ l.getLast? = some '\r') :
    processFile cfg false (processFile cfg false f).1
      = ((processFile cfg false f).1, []) := by
  cases hq : lookupAssoc commentPrefixes (filepathExt f.path) with
  | none => simp [processFile, hq]
  | some pfx =>
    have hp : pfx = ['/', '/'] := lookupAssoc_commentPrefixes hq
    subst hp
    by_cases hex : isExcluded cfg.Exclude f.path
    · simp [processFile, hq, hex]
    · by_cases hchk : checkHeader cfg.Header ['/', '/'] f.content
      · simp [processFile, hq, hex, hchk]
      · have hfirst : (processFile cfg false f).1
            = ⟨f.path, headerText cfg.Header ['/', '/'] ++ f.content⟩ := by
          simp [processFile, hq, hex, hchk]
        have hfc : checkHeader cfg.Header ['/', '/'] f.content = false := by
          simpa using hchk
        obtain ⟨h1, h2⟩ := checkHeader_false_nonempty hfc
        have hln : ∀ l ∈ buildHeader cfg.Header ['/', '/'], '\n' ∉ l := by
          intro l hl
          rcases mem_buildHeader hl with h | ⟨t, ht, htn, rfl⟩
          · subst h
            decide
          · have hnt := mem_splitLines_no_newline ht
            intro hmem
            rcases List.mem_append.mp hmem with hmem | hmem
            · exact absurd hmem (by decide)
            · rcases List.mem_cons.mp hmem with hmem | hmem
              · exact absurd hmem (by decide)
              · exact hnt hmem
        have hcheck2 : checkHeader cfg.Header ['/', '/']
            (headerText cfg.Header ['/', '/'] ++ f.content) = true :=
          checkHeader_headerText _ _ _ h1 h2 hln hcr
        rw [hfirst]
        simp [processFile, hq, hex, hcheck2]

/-- Witness for the amended C3 at a concrete input: template `"T"`, a `.go`
file with content `"x"`. -/
theorem processFile_idempotent_witness :
    processFile ⟨"T".toList, []⟩ false
        ((processFile ⟨"T".toList, []⟩ false ⟨"a.go".toList, "x".toList⟩).1)
      = ((processFile ⟨"T".toList, []⟩ false ⟨"a.go".toList, "x".toList⟩).1, []) :=
  processFile_idempotent _ _ (by decide)

/-- C5 (confirmed): whenever the built header is `hs1 ++ [hN]` and the file's
scanned lines are `hs1` followed by a line different from `hN` — first `N-1`
lines match, `N`-th differs — the header check returns false with no error,
whatever lines follow (the short-circuit never reads them). -/
theorem checkHeader_first_mismatch (tmpl pfx content : List Char)
    (hs1 : List (List Char)) (hN lN : List Char) (rest : List (List Char))
    (hne : ¬ tmpl = [])
    (hbh : buildHeader tmpl pfx = hs1 ++ [hN])
    (hscan : scanLines content = hs1 ++ lN :: rest)
    (hdiff : ¬ lN = hN) :
    checkHeader tmpl pfx content = false := by
  unfold checkHeader
  rw [if_neg hne]
  show (if buildHeader tmpl pfx = [] then true
        else checkHeaderLines (buildHeader tmpl pfx) (scanLines content)) = false
  rw [hbh, hscan, if_neg (by simp)]
  exact checkHeaderLines_mismatch hs1 hN lN rest hdiff

/-- Witness for C5 at a concrete input: two-line header, first line matches,
second differs. -/
theorem checkHeader_first_mismatch_witness :
    checkHeader "a\nb".toList "//".toList "// a\n// X\n".toList = false :=
  checkHeader_first_mismatch _ _ _ ["// a".toList] "// b".toList "// X".toList []
    (by decide) (by decide) (by decide) (by decide)

/-- C6 (confirmed): if the configured template is empty, or the built header
trims to zero lines for every prefix, then the header check succeeds for
every file regardless of its content, and a run over any tree changes no
file and emits no report. -/
theorem emptyTemplate_no_mutation (cfg : Config) (dryRun : Bool) (files : List FileEntry)
    (h : cfg.Header = [] ∨ ∀ p, buildHeader cfg.Header p = []) :
    (∀ pfx content, checkHeader cfg.Header pfx content = true) ∧
    Process cfg dryRun files = ⟨files, []⟩ := by
  have hchk : ∀ pfx content, checkHeader cfg.Header pfx content = true := by
    intro pfx content
    unfold checkHeader
    rcases h with h | h
    · rw [if_pos h]
    · by_cases he : cfg.Header = []
      · rw [if_pos he]
      · rw [if_neg he]
        show (if buildHeader cfg.Header pfx = [] then true
              else checkHeaderLines (buildHeader cfg.Header pfx) (scanLines content)) = true
        rw [if_pos (h pfx)]
  refine ⟨hchk, ?_⟩
  induction files with
  | nil => rfl
  | cons f rest ih =>
    have hf : processFile cfg dryRun f = (f, []) := by
      cases hq : lookupAssoc commentPrefixes (filepathExt f.path) with
      | none => simp [processFile, hq]
      | some pfx =>
        by_cases hex : isExcluded cfg.Exclude f.path
        · simp [processFile, hq, hex]
        · simp [processFile, hq, hex, hchk pfx f.content]
    simp [Process, hf, ih]

/-- Witness for C6 at a concrete input: empty template, one `.go` file. -/
theorem emptyTemplate_no_mutation_witness :
    Process ⟨[], []⟩ false [⟨"a.go".toList, "x".toList⟩]
      = ⟨[⟨"a.go".toList, "x".toList⟩], []⟩ :=
  (emptyTemplate_no_mutation ⟨[], []⟩ false [⟨"a.go".toList, "x".toList⟩] (Or.inl rfl)).2

/-- C7 (confirmed): a dry run writes no file — the post-run tree equals the
input tree — and in every mode the notifications are exactly one per file
that needs a header (registered extension, not excluded, check fails), in
walk order, and none for any other file. -/
theorem process_notification_discipline (cfg : Config) (files : List FileEntry) :
    (Process cfg true files).files = files ∧
    ∀ dryRun, (Process cfg dryRun files).reports
      = (files.filter (fun f => needsHeader cfg f)).map (fun f => f.path) := by
  constructor
  · induction files with
    | nil => rfl
    | cons f rest ih =>
      have hf : (processFile cfg true f).1 = f := by
        cases hq : lookupAssoc commentPrefixes (filepathExt f.path) with
        | none => simp [processFile, hq]
        | some pfx =>
          by_cases hex : isExcluded cfg.Exclude f.path
          · simp [processFile, hq, hex]
          · by_cases hchk : checkHeader cfg.Header pfx f.content
            · simp [processFile, hq, hex, hchk]
            · simp [processFile, hq, hex, hchk]
      simp [Process, hf, ih]
  · intro dryRun
    induction files with
    | nil => rfl
    | cons f rest ih =>
      have hf : (processFile cfg dryRun f).2
          = if needsHeader cfg f then [f.path] else [] := by
        cases hq : lookupAssoc commentPrefixes (filepathExt f.path) with
        | none => simp [processFile, needsHeader, hq]
        | some pfx =>
          by_cases hex : isExcluded cfg.Exclude f.path
          · simp [processFile, needsHeader, hq, hex]
          · by_cases hchk : checkHeader cfg.Header pfx f.content
            · simp [processFile, needsHeader, hq, hex, hchk]
            · by_cases hd : dryRun
              · simp [processFile, needsHeader, hq, hex, hchk, hd]
              · simp [processFile, needsHeader, hq, hex, hchk, hd]
      by_cases hn : needsHeader cfg f
      · simp [Process, hf, ih, hn, List.filter_cons]
      · simp [Process, hf, ih, hn, List.filter_cons]

/-- C8 (confirmed): on any well-formed cache — every entry holds the built
header for its prefix, true of the empty initial cache — `getHeader` returns
exactly `buildHeader` for the requested prefix, both `getHeader` and
`warmCache` preserve well-formedness, and neither ever changes the value an
existing entry yields for its prefix. -/
theorem getHeader_cache_coherent (cfg : Config) (cache : Cache) (pfx : List Char)
    (hwf : CacheWF cfg cache) :
    (getHeader cfg cache pfx).1 = buildHeader cfg.Header pfx ∧
    CacheWF cfg (getHeader cfg cache pfx).2 ∧
    CacheWF cfg (warmCache cfg cache) ∧
    ∀ p v, lookupAssoc cache p = some v →
      lookupAssoc (getHeader cfg cache pfx).2 p = some v ∧
      lookupAssoc (warmCache cfg cache) p = some v := by
  have hwexp : warmCache cfg cache
      = (match lookupAssoc cache ['/', '/'] with
         | some _ => cache
         | none => (['/', '/'], buildHeader cfg.Header ['/', '/']) :: cache) := rfl
  have hwarmWF : CacheWF cfg (warmCache cfg cache) := by
    intro p v h
    rw [hwexp] at h
    cases hq2 : lookupAssoc cache ['/', '/'] with
    | some w =>
      rw [hq2] at h
      exact hwf p v h
    | none =>
      rw [hq2] at h
      by_cases hp : ['/', '/'] = p
      · rw [show lookupAssoc ((['/', '/'], buildHeader cfg.Header ['/', '/']) :: cache) p
            = some (buildHeader cfg.Header ['/', '/']) by simp [lookupAssoc, hp]] at h
        rw [← hp]
        exact (Option.some.injEq .. ▸ h).symm ▸ rfl
      · rw [show lookupAssoc ((['/', '/'], buildHeader cfg.Header ['/', '/']) :: cache) p
            = lookupAssoc cache p by simp [lookupAssoc, hp]] at h
        exact hwf p v h
  have hwarmKeep : ∀ p v, lookupAssoc cache p = some v →
      lookupAssoc (warmCache cfg cache) p = some v := by
    intro p v h
    rw [hwexp]
    cases hq2 : lookupAssoc cache ['/', '/'] with
    | some w => exact h
    | none =>
      by_cases hp : ['/', '/'] = p
      · rw [← hp] at h
        rw [h] at hq2
        exact absurd hq2 (by simp)
      · simpa [lookupAssoc, hp] using h
  cases hq : lookupAssoc cache pfx with
  | some v =>
    have hget : getHeader cfg cache pfx = (v, cache) := by simp [getHeader, hq]
    refine ⟨?_, ?_, hwarmWF, ?_⟩
    · rw [hget]
      exact hwf pfx v hq
    · rw [hget]
      exact hwf
    · intro p w h
      rw [hget]
      exact ⟨h, hwarmKeep p w h⟩
  | none =>
    have hget : getHeader cfg cache pfx
        = (buildHeader cfg.Header pfx, (pfx, buildHeader cfg.Header pfx) :: cache) := by
      simp [getHeader, hq]
    refine ⟨by rw [hget], ?_, hwarmWF, ?_⟩
    · rw [hget]
      intro p v h
      by_cases hp : pfx = p
      · rw [show lookupAssoc ((pfx, buildHeader cfg.Header pfx) :: cache) p
            = some (buildHeader cfg.Header pfx) by simp [lookupAssoc, hp]] at h
        rw [← hp]
        exact (Option.some.injEq .. ▸ h).symm ▸ rfl
      · rw [show lookupAssoc ((pfx, buildHeader cfg.Header pfx) :: cache) p
            = lookupAssoc cache p by simp [lookupAssoc, hp]] at h
        exact hwf p v h
    · intro p v h
      rw [hget]
      refine ⟨?_, hwarmKeep p v h⟩
      by_cases hp : pfx = p
      · rw [← hp] at h
        rw [h] at hq
        exact absurd hq (by simp)
      · simpa [lookupAssoc, hp] using h

/-- Witness for C8 at a concrete input: the empty initial cache, template
`"T"`, the `"//"` prefix. -/
theorem getHeader_cache_coherent_witness :
    (getHeader ⟨"T".toList, []⟩ [] "//".toList).1 = buildHeader "T".toList "//".toList :=
  (getHeader_cache_coherent ⟨"T".toList, []⟩ [] "//".toList
    (fun p v h => by simp [lookupAssoc] at h)).1

end Copygen
